import Mathlib

/-!
# Verification of the `unpivot` processor (dataflows)

A shallow embedding of `src/dataflows/processors/unpivot.py`.

The processor turns wide tables into long ones: a schema-resolution pass
rewrites each matched table's schema (splitting fields into pivoted and kept
ones via full-string regex matching, and resolving per-field key templates via
`re.sub`), then a row-expansion pass replaces each matched table's row stream
by one output row per (input row, resolved pivot field) pair.

Python dictionaries are modelled as association lists with insertion-order
update semantics, rows as such dictionaries, the Python `re` fragment used by
the processor (literal characters, `\d`, numbered groups, `*`, `+`, `|`) as a
small regex AST with a priority-ordered backtracking matcher, and generators
as strict lists inside `Except` (the first raised exception replaces the rest
of the stream).  The external `ResourceMatcher` collaborator is abstracted as
a predicate on table names.
-/

set_option maxRecDepth 4000
set_option synthInstance.maxSize 2000

/-- Values stored in rows and key mappings: Python `None`, ints and strings. -/
inductive Value : Type where
  | none : Value
  | int : Int → Value
  | str : String → Value
deriving DecidableEq, Repr

/-- A Python dictionary with string keys: an association list where updating an
existing key keeps its position and a new key is appended at the end. -/
abbrev Dict : Type := List (String × Value)

/-- `d.get(k)`: the value at key `k`, if present. -/
def dictGet? (d : Dict) (k : String) : Option Value :=
  (d.find? (fun p => p.1 == k)).map (fun p => p.2)

/-- `d[k] = v`: overwrite in place or append at the end. -/
def dictSet (d : Dict) (k : String) (v : Value) : Dict :=
  if d.any (fun p => p.1 == k) then
    d.map (fun p => if p.1 == k then (k, v) else p)
  else
    d ++ [(k, v)]

/-- `list(d.keys())`. -/
def dictKeys (d : Dict) : List String := d.map (fun p => p.1)

/-! ## The regex fragment

The processor calls `re.compile`, `pattern.fullmatch` and `re.sub`.  We model
the fragment of Python regex syntax it relies on: literal characters, the
class `\d`, numbered capture groups, alternation and the `*`/`+` repetitions.
-/

/-- Abstract syntax of the modelled regex fragment. -/
inductive RE : Type where
  | eps : RE
  | ch : Char → RE
  | digit : RE
  | seq : RE → RE → RE
  | alt : RE → RE → RE
  | star : RE → RE
  | group : Nat → RE → RE
deriving DecidableEq, Repr

/-- Capture environment: group number ↦ captured characters. -/
abbrev Caps : Type := List (Nat × List Char)

/-- Record the capture of group `n` (overwriting an earlier capture). -/
def capSet (caps : Caps) (n : Nat) (s : List Char) : Caps :=
  if caps.any (fun p => p.1 == n) then
    caps.map (fun p => if p.1 == n then (n, s) else p)
  else
    caps ++ [(n, s)]

/-- Look up the capture of group `n`. -/
def capGet (caps : Caps) (n : Nat) : Option (List Char) :=
  (caps.find? (fun p => p.1 == n)).map (fun p => p.2)

/-- Iterate a match step for `star`: greedily try further (strictly consuming)
iterations first, and offer stopping as the last alternative.  `m` is the
matcher of the starred expression; `fuel` bounds the number of iterations
(each iteration consumes at least one character, so `cs.length` is enough). -/
def starMatch (m : List Char → Caps → List (List Char × Caps)) :
    Nat → List Char → Caps → List (List Char × Caps)
  | 0, cs, k => [(cs, k)]
  | fuel + 1, cs, k =>
      (((m cs k).filter (fun p => p.1.length < cs.length)).flatMap
        (fun p => starMatch m fuel p.1 p.2)) ++ [(cs, k)]

/-- Backtracking matcher: all ways for `re` to match a prefix of `cs`, as
pairs (remaining suffix, captures), in Python's backtracking priority order
(leftmost alternative first, greedy repetition). -/
def reMatch : RE → List Char → Caps → List (List Char × Caps)
  | .eps, cs, k => [(cs, k)]
  | .ch c, cs, k =>
      match cs with
      | [] => []
      | x :: rest => if x = c then [(rest, k)] else []
  | .digit, cs, k =>
      match cs with
      | [] => []
      | x :: rest => if x.isDigit then [(rest, k)] else []
  | .seq a b, cs, k => (reMatch a cs k).flatMap (fun p => reMatch b p.1 p.2)
  | .alt a b, cs, k => reMatch a cs k ++ reMatch b cs k
  | .group n a, cs, k =>
      (reMatch a cs k).map
        (fun p => (p.1, capSet p.2 n (cs.take (cs.length - p.1.length))))
  | .star a, cs, k => starMatch (reMatch a) cs.length cs k

/-- `pattern.fullmatch(s)`: the captures of the first (in priority order)
match consuming the whole string, if any. -/
def reFullmatch (r : RE) (s : List Char) : Option Caps :=
  ((reMatch r s []).find? (fun p => p.1.isEmpty)).map (fun p => p.2)

/-- `pattern.fullmatch(s) is not None`, on `String`. -/
def fullmatchB (r : RE) (s : String) : Bool :=
  (reFullmatch r s.data).isSome

/-- `match_fields(field_name_re, expected)` from the source: the filter keeps a
field iff (its name fully matches) equals `expected`. -/
def match_fields (field_name_re : RE) (expected : Bool) (name : String) : Bool :=
  fullmatchB field_name_re name == expected

/-- Declarative semantics of the regex fragment: `RMatch r s` says the
*entire* character list `s` belongs to the language of `r`. -/
inductive RMatch : RE → List Char → Prop where
  | eps : RMatch .eps []
  | ch (c : Char) : RMatch (.ch c) [c]
  | digit {c : Char} : c.isDigit → RMatch .digit [c]
  | seq {a b : RE} {s1 s2 : List Char} :
      RMatch a s1 → RMatch b s2 → RMatch (.seq a b) (s1 ++ s2)
  | altL {a b : RE} {s : List Char} : RMatch a s → RMatch (.alt a b) s
  | altR {a b : RE} {s : List Char} : RMatch b s → RMatch (.alt a b) s
  | starNil {a : RE} : RMatch (.star a) []
  | starCons {a : RE} {s1 s2 : List Char} :
      RMatch a s1 → RMatch (.star a) s2 → RMatch (.star a) (s1 ++ s2)
  | group {n : Nat} {a : RE} {s : List Char} :
      RMatch a s → RMatch (.group n a) s

/-- Star membership through non-empty iterations only (the normal form the
fueled matcher realizes: empty iterations contribute nothing). -/
inductive StarN (a : RE) : List Char → Prop where
  | nil : StarN a []
  | cons {s1 s2 : List Char} :
      s1 ≠ [] → RMatch a s1 → StarN a s2 → StarN a (s1 ++ s2)

/-! ### Compiling pattern strings (`re.compile`) -/

/-- Characters that are regex metacharacters and hence not plain literals. -/
def reSpecials : List Char :=
  ['(', ')', '|', '*', '+', '?', '[', ']', '{', '}', '^', '$', '.', '\\']

/-- Apply an optional `*`/`+` postfix operator to a parsed atom. -/
def applyPost (r : RE) : List Char → RE × List Char
  | '*' :: rest => (.star r, rest)
  | '+' :: rest => (.seq r (.star r), rest)
  | cs => (r, cs)

/-- Concatenate a parsed atom list. -/
def seqList : List RE → RE
  | [] => .eps
  | [r] => r
  | r :: rs => .seq r (seqList rs)

mutual

/-- Parse an alternation (`a|b|…`).  State: fuel, input, next group number. -/
def parseAlt : Nat → List Char → Nat → Option (RE × List Char × Nat)
  | 0, _, _ => Option.none
  | fuel + 1, cs, g => do
      let (rs, cs1, g1) ← parseSeq fuel cs g
      match cs1 with
      | '|' :: rest => do
          let (r2, cs2, g2) ← parseAlt fuel rest g1
          pure (.alt (seqList rs) r2, cs2, g2)
      | _ => pure (seqList rs, cs1, g1)

/-- Parse a (possibly empty) sequence of atoms, stopping at `|`, `)` or the
end of the input. -/
def parseSeq : Nat → List Char → Nat → Option (List RE × List Char × Nat)
  | 0, _, _ => Option.none
  | fuel + 1, cs, g =>
      match cs with
      | [] => pure ([], [], g)
      | ')' :: _ => pure ([], cs, g)
      | '|' :: _ => pure ([], cs, g)
      | _ => do
          let (r, cs1, g1) ← parseAtom fuel cs g
          let (rs, cs2, g2) ← parseSeq fuel cs1 g1
          pure (r :: rs, cs2, g2)

/-- Parse one atom (literal, `\d`, escaped literal or group) with its optional
`*`/`+` postfix. -/
def parseAtom : Nat → List Char → Nat → Option (RE × List Char × Nat)
  | 0, _, _ => Option.none
  | fuel + 1, cs, g =>
      match cs with
      | [] => Option.none
      | '\\' :: c :: rest =>
          if c = 'd' then
            let (r, rest1) := applyPost .digit rest
            pure (r, rest1, g)
          else if c ∈ reSpecials then
            let (r, rest1) := applyPost (.ch c) rest
            pure (r, rest1, g)
          else Option.none
      | '(' :: rest => do
          let (inner, rest1, g1) ← parseAlt fuel rest (g + 1)
          match rest1 with
          | ')' :: rest2 =>
              let (r, rest3) := applyPost (.group (g + 1) inner) rest2
              pure (r, rest3, g1)
          | _ => Option.none
      | c :: rest =>
          if c ∈ reSpecials then Option.none
          else
            let (r, rest1) := applyPost (.ch c) rest
            pure (r, rest1, g)

end

/-- `re.compile(pattern)`: `none` models a raised `re.error`. -/
def reCompile (pattern : String) : Option RE :=
  match parseAlt (4 * pattern.length + 8) pattern.data 0 with
  | some (r, [], _) => some r
  | _ => Option.none

/-! ### Substitution (`re.sub`) -/

/-- Expand a replacement-template (Python semantics: `\1`…`\9` are group
back-references, `\` followed by a non-digit escapes it, every other
character — including `$` — is literal). -/
def tmplExpand (caps : Caps) : List Char → List Char
  | [] => []
  | '\\' :: c :: rest =>
      if c.isDigit then
        ((capGet caps (c.toNat - '0'.toNat)).getD []) ++ tmplExpand caps rest
      else
        c :: tmplExpand caps rest
  | c :: rest => c :: tmplExpand caps rest

/-- The scanning loop of `re.sub`: at each position take the first match in
priority order, emit the expanded template, and continue after it (advancing
one character past an empty match, and copying unmatched characters). -/
def reSubScan (r : RE) (tmpl : List Char) : Nat → List Char → List Char
  | 0, cs => cs
  | _ + 1, [] =>
      match (reMatch r [] []).head? with
      | some p => tmplExpand p.2 tmpl
      | Option.none => []
  | fuel + 1, c :: rest =>
      match (reMatch r (c :: rest) []).head? with
      | some p =>
          if p.1.length < (c :: rest).length then
            tmplExpand p.2 tmpl ++ reSubScan r tmpl fuel p.1
          else
            tmplExpand p.2 tmpl ++ c :: reSubScan r tmpl fuel rest
      | Option.none => c :: reSubScan r tmpl fuel rest

/-- `re.sub(pattern, tmpl, s)` for an already compiled `pattern`. -/
def reSub (r : RE) (tmpl : String) (s : String) : String :=
  ⟨reSubScan r tmpl.data (s.length + 1) s.data⟩

/-! ## The data model of the processor -/

/-- A schema field descriptor (only its `name` matters to the processor). -/
structure FieldD : Type where
  name : String
deriving DecidableEq, Repr

/-- One entry of the `unpivot_fields` configuration: a pattern string plus a
mapping from new key names to templates (strings) or literals. -/
structure UField : Type where
  name : String
  keys : List (String × Value)
deriving DecidableEq, Repr

/-- A resolved pivot field: the mutated field descriptor appended to
`unpivot_fields_without_regex`.  Its `keys` entry is only present when the
spec's `keys` mapping was non-empty (the assignment `field_to_pivot['keys'] =
new_key_values` sits inside the loop over the keys, so an empty mapping never
executes it). -/
structure PivotField : Type where
  name : String
  keys : Option Dict
deriving DecidableEq, Repr

/-- A resource: its name, its optional schema (the `fields` list of the
descriptor's `schema`, when the descriptor has one) and its row stream. -/
structure Resource : Type where
  name : String
  schema : Option (List FieldD)
  rows : List Dict
deriving DecidableEq, Repr

/-- The configuration of `unpivot(unpivot_fields, extra_keys, extra_value)`.
The `resources` argument is abstracted, together with `ResourceMatcher`, into
a predicate on resource names. -/
structure Config : Type where
  unpivotFields : List UField
  extraKeys : List FieldD
  extraValue : FieldD
deriving DecidableEq, Repr

/-! ## Row expansion (`unpivot_rows`) -/

/-- Sequence a fallible map over a list, stopping at the first error — the
semantics of a Python generator whose body may raise. -/
def collectE (f : α → Except String β) : List α → Except String (List β)
  | [] => .ok []
  | x :: xs => do
      let y ← f x
      let ys ← collectE f xs
      pure (y :: ys)

/-- One step of `for field in fields_to_keep: new_row[field] = row[field]`:
the direct (non-defaulting) lookup `row[field]` raises a `KeyError` when the
row lacks the field. -/
def keepStep (row : Dict) (acc : Dict) (fieldName : String) :
    Except String Dict :=
  match dictGet? row fieldName with
  | some v => pure (dictSet acc fieldName v)
  | Option.none => Except.error ("KeyError: " ++ fieldName)

/-- The body of the inner loop of `unpivot_rows`:
`new_row = copy.deepcopy(unpivot_field['keys'])` (a `KeyError` if the
resolved field has no `keys` entry), then `new_row[field] = row[field]` for
each kept field, then
`new_row[extra_value['name']] = row.get(unpivot_field['name'])` (the
defaulting `get`: an absent value becomes `None`). -/
def makeRow (unpivotField : PivotField) (fieldsToKeep : List String)
    (extraValue : FieldD) (row : Dict) : Except String Dict :=
  match unpivotField.keys with
  | Option.none => Except.error "KeyError: 'keys'"
  | some keysDict => do
      let withKept ← fieldsToKeep.foldlM (keepStep row) keysDict
      pure (dictSet withKept extraValue.name
        ((dictGet? row unpivotField.name).getD Value.none))

/-- `unpivot_rows(rows, fields_to_unpivot, fields_to_keep, extra_value)`:
for every input row, one output row per resolved pivot field. -/
def unpivotRows (rows : List Dict) (fieldsToUnpivot : List PivotField)
    (fieldsToKeep : List String) (extraValue : FieldD) :
    Except String (List Dict) :=
  (collectE
    (fun row =>
      collectE (fun uf => makeRow uf fieldsToKeep extraValue row)
        fieldsToUnpivot)
    rows).map List.flatten

/-! ## Schema resolution -/

/-- Resolve one matched field against one spec: for each `(key, template)`
pair, a string template is replaced by `re.sub(pattern, template, field
name)`, a non-string passes through as a literal. -/
def resolveField (uField : UField) (fieldNameRe : RE) (f : FieldD) :
    PivotField :=
  let newKeyValues := uField.keys.foldl
    (fun acc kv =>
      let newVal :=
        match kv.2 with
        | Value.str t => Value.str (reSub fieldNameRe t f.name)
        | v => v
      dictSet acc kv.1 newVal)
    []
  { name := f.name
    keys := if uField.keys.isEmpty then Option.none else some newKeyValues }

/-- The loop over `unpivot_fields` for one table: compile each spec's pattern
(propagating `re.error`), split the working field list into pivoted and
remaining fields, and append the resolved pivot fields to the accumulator
`unpivot_fields_without_regex`. -/
def resolveSpecs : List UField → List FieldD → List PivotField →
    Except String (List FieldD × List PivotField)
  | [], fields, acc => .ok (fields, acc)
  | uField :: rest, fields, acc =>
      match reCompile uField.name with
      | Option.none => .error ("re.error: " ++ uField.name)
      | some fieldNameRe =>
          let fieldsToPivot :=
            fields.filter (fun f => match_fields fieldNameRe true f.name)
          let remaining :=
            fields.filter (fun f => match_fields fieldNameRe false f.name)
          resolveSpecs rest remaining
            (acc ++ fieldsToPivot.map (fun f => resolveField uField fieldNameRe f))

/-- The schema pass of `func`: walk the package's resource descriptors in
order; for each matched resource with a schema, resolve its fields, install
the rewritten schema `kept ++ extra_keys ++ [extra_value]`, extend the shared
accumulator and overwrite the shared `fields_to_keep` variable (which starts
out unassigned, hence the `Option`). -/
def schemaPass (cfg : Config) (matcher : String → Bool) :
    List Resource → List PivotField → Option (List String) →
    Except String (List Resource × List PivotField × Option (List String))
  | [], acc, ftk => .ok ([], acc, ftk)
  | r :: rs, acc, ftk =>
      if matcher r.name then
        match r.schema with
        | Option.none => do
            let (rs1, acc1, ftk1) ← schemaPass cfg matcher rs acc ftk
            pure (r :: rs1, acc1, ftk1)
        | some fields => do
            let (kept, acc1) ← resolveSpecs cfg.unpivotFields fields acc
            let newFields := kept ++ cfg.extraKeys ++ [cfg.extraValue]
            let (rs1, acc2, ftk1) ←
              schemaPass cfg matcher rs acc1 (some (kept.map FieldD.name))
            pure ({ r with schema := some newFields } :: rs1, acc2, ftk1)
      else do
        let (rs1, acc1, ftk1) ← schemaPass cfg matcher rs acc ftk
        pure (r :: rs1, acc1, ftk1)

/-- The row pass of `func`: unmatched resources are yielded unchanged, matched
ones (schema or not) are replaced by `unpivot_rows(...)` — reading the shared
`fields_to_keep`, a `NameError` if it was never assigned. -/
def rowPass (matcher : String → Bool) (pivots : List PivotField)
    (ftk : Option (List String)) (extraValue : FieldD) (rs : List Resource) :
    Except String (List (Except String (List Dict))) :=
  collectE
    (fun r =>
      if matcher r.name then
        match ftk with
        | Option.none => .error "NameError: fields_to_keep"
        | some keep => .ok (unpivotRows r.rows pivots keep extraValue)
      else .ok (.ok r.rows))
    rs

/-- `unpivot(...)`'s `func`, applied to a package: the schema pass runs to
completion (its errors raised before any row), then the mutated descriptors
and the per-resource output row streams are produced. -/
def unpivot (cfg : Config) (matcher : String → Bool) (pkg : List Resource) :
    Except String (List Resource × List (Except String (List Dict))) := do
  let (rs1, pivots, ftk) ← schemaPass cfg matcher pkg [] Option.none
  let outs ← rowPass matcher pivots ftk cfg.extraValue pkg
  pure (rs1, outs)

/-- Equality of `Except` values is decidable when it is on both sides. -/
instance instDecEqExcept {ε α : Type} [DecidableEq ε] [DecidableEq α] :
    DecidableEq (Except ε α) := fun a b =>
  match a, b with
  | .error e, .error f =>
      if h : e = f then isTrue (by rw [h])
      else isFalse (fun hh => h (Except.error.inj hh))
  | .ok x, .ok y =>
      if h : x = y then isTrue (by rw [h])
      else isFalse (fun hh => h (Except.ok.inj hh))
  | .error _, .ok _ => isFalse (fun hh => Except.noConfusion hh)
  | .ok _, .error _ => isFalse (fun hh => Except.noConfusion hh)

/-! ## Concrete instances used to settle individual claims -/

/-- One spec pivoting the literal field `a` into key `k`, new value field `v`. -/
def cfgC1 : Config :=
  { unpivotFields := [⟨"a", [("k", Value.str "x")]⟩]
    extraKeys := []
    extraValue := ⟨"v"⟩ }

/-- A matched table with a schema next to a matched table without one. -/
def pkgC1 : List Resource :=
  [⟨"t1", some [⟨"a"⟩], []⟩,
   ⟨"t2", Option.none, [[("b", Value.int 1)]]⟩]

/-- Two specs, each pivoting one literal field of its own table. -/
def cfgC2 : Config :=
  { unpivotFields :=
      [⟨"a", [("k", Value.str "x")]⟩, ⟨"b", [("k", Value.str "y")]⟩]
    extraKeys := []
    extraValue := ⟨"v"⟩ }

/-- Two matched tables with one schema field and one row each. -/
def pkgC2 : List Resource :=
  [⟨"t1", some [⟨"a"⟩], [[("a", Value.int 1)]]⟩,
   ⟨"t2", some [⟨"b"⟩], [[("b", Value.int 2)]]⟩]

/-- The §8 scenario configuration: `q(\d)` with key template `$1`, value field
`amount`, no extra keys. -/
def cfgC5 : Config :=
  { unpivotFields := [⟨"q(\\d)", [("quarter", Value.str "$1")]⟩]
    extraKeys := []
    extraValue := ⟨"amount"⟩ }

/-- The §8 scenario configuration with the Python spelling `\1` of the
back-reference in the key template. -/
def cfgC5' : Config :=
  { unpivotFields := [⟨"q(\\d)", [("quarter", Value.str "\\1")]⟩]
    extraKeys := []
    extraValue := ⟨"amount"⟩ }

/-- The §8 scenario package: table `sales` with fields `region, q1, q2, q3`
and the single row `{region: "east", q1: 10, q2: 20, q3: 30}`. -/
def pkgC5 : List Resource :=
  [⟨"sales", some [⟨"region"⟩, ⟨"q1"⟩, ⟨"q2"⟩, ⟨"q3"⟩],
    [[("region", Value.str "east"), ("q1", Value.int 10),
      ("q2", Value.int 20), ("q3", Value.int 30)]]⟩]

/-- One spec pivoting `q1` into key column `quarter`, no extra keys. -/
def cfgC4 : Config :=
  { unpivotFields := [⟨"q1", [("quarter", Value.str "Q")]⟩]
    extraKeys := []
    extraValue := ⟨"amount"⟩ }

/-- A matched table with fields `region, q1` and one row. -/
def pkgC4 : List Resource :=
  [⟨"t", some [⟨"region"⟩, ⟨"q1"⟩],
    [[("region", Value.str "e"), ("q1", Value.int 10)]]⟩]

/-- A configuration whose only spec has the invalid pattern `(`. -/
def cfgC9 : Config :=
  { unpivotFields := [⟨"(", [("k", Value.str "x")]⟩]
    extraKeys := []
    extraValue := ⟨"v"⟩ }

/-- A package with a single table carrying a schema and one row. -/
def pkgC9 : List Resource :=
  [⟨"t", some [⟨"a"⟩], [[("a", Value.int 1)]]⟩]

/-! ## Claim C3: the regex template law -/

/-- C3, counterexample.  For the spec `{name: "q_(\d+)", keys: {"quarter":
"$1"}}` the field `q_1` is resolved with keys `{"quarter": "$1"}` — Python's
`re.sub` gives `$` no special meaning in a replacement template — and not
with `{"quarter": "1"}` as the claim states. -/
theorem C3_counterexample :
    (reCompile "q_(\\d+)").map
        (fun r =>
          resolveField ⟨"q_(\\d+)", [("quarter", Value.str "$1")]⟩ r ⟨"q_1"⟩) =
      some ⟨"q_1", some [("quarter", Value.str "$1")]⟩ ∧
    Value.str "$1" ≠ Value.str "1" := by
  exact ⟨by decide, by decide⟩

/-- C3, amended.  With the template written `$1` the resolved keys mapping is
exactly `{"quarter": "$1"}` (the template is copied literally); the intended
back-reference is spelled `\1`, and with `keys = {"quarter": "\1"}` the field
`q_1` is resolved with keys exactly `{"quarter": "1"}`. -/
theorem C3_amended :
    (reCompile "q_(\\d+)").map
        (fun r =>
          resolveField ⟨"q_(\\d+)", [("quarter", Value.str "$1")]⟩ r ⟨"q_1"⟩) =
      some ⟨"q_1", some [("quarter", Value.str "$1")]⟩ ∧
    (reCompile "q_(\\d+)").map
        (fun r =>
          resolveField ⟨"q_(\\d+)", [("quarter", Value.str "\\1")]⟩ r ⟨"q_1"⟩) =
      some ⟨"q_1", some [("quarter", Value.str "1")]⟩ := by
  exact ⟨by decide, by decide⟩

/-! ## Claim C5: the §8 scenario -/

/-- C5, counterexample.  Running the §8 scenario: the rewritten schema field
list is `[region, amount]`, not `[region, quarter, amount]` (the `quarter`
column is only ever added through `extraKeys`, which the scenario leaves
empty), and every output row has `quarter = "$1"` (literal), not
`"1"/"2"/"3"`. -/
theorem C5_counterexample :
    unpivot cfgC5 (fun _ => true) pkgC5 =
      .ok ([⟨"sales", some [⟨"region"⟩, ⟨"amount"⟩],
              [[("region", Value.str "east"), ("q1", Value.int 10),
                ("q2", Value.int 20), ("q3", Value.int 30)]]⟩],
           [.ok [[("quarter", Value.str "$1"), ("region", Value.str "east"),
                  ("amount", Value.int 10)],
                 [("quarter", Value.str "$1"), ("region", Value.str "east"),
                  ("amount", Value.int 20)],
                 [("quarter", Value.str "$1"), ("region", Value.str "east"),
                  ("amount", Value.int 30)]]]) ∧
    ([⟨"region"⟩, ⟨"amount"⟩] : List FieldD) ≠
      [⟨"region"⟩, ⟨"quarter"⟩, ⟨"amount"⟩] ∧
    Value.str "$1" ≠ Value.str "1" := by
  refine ⟨by decide, by decide, by decide⟩

/-- C5, amended.  The §8 scenario as written yields the three rows
`{quarter:"$1", region:"east", amount:10∣20∣30}` and the rewritten schema
`[region, amount]`; with the back-reference spelled `\1` the rows are
`{quarter:"1"∣"2"∣"3", region:"east", amount:10∣20∣30}` (the schema is
unchanged, still missing `quarter`, which only `extraKeys` could add). -/
theorem C5_amended :
    unpivot cfgC5 (fun _ => true) pkgC5 =
      .ok ([⟨"sales", some [⟨"region"⟩, ⟨"amount"⟩],
              [[("region", Value.str "east"), ("q1", Value.int 10),
                ("q2", Value.int 20), ("q3", Value.int 30)]]⟩],
           [.ok [[("quarter", Value.str "$1"), ("region", Value.str "east"),
                  ("amount", Value.int 10)],
                 [("quarter", Value.str "$1"), ("region", Value.str "east"),
                  ("amount", Value.int 20)],
                 [("quarter", Value.str "$1"), ("region", Value.str "east"),
                  ("amount", Value.int 30)]]]) ∧
    unpivot cfgC5' (fun _ => true) pkgC5 =
      .ok ([⟨"sales", some [⟨"region"⟩, ⟨"amount"⟩],
              [[("region", Value.str "east"), ("q1", Value.int 10),
                ("q2", Value.int 20), ("q3", Value.int 30)]]⟩],
           [.ok [[("quarter", Value.str "1"), ("region", Value.str "east"),
                  ("amount", Value.int 10)],
                 [("quarter", Value.str "2"), ("region", Value.str "east"),
                  ("amount", Value.int 20)],
                 [("quarter", Value.str "3"), ("region", Value.str "east"),
                  ("amount", Value.int 30)]]]) := by
  exact ⟨by decide, by decide⟩

/-! ## Claim C1: matched tables without a schema -/

/-- C1, counterexample.  In `pkgC1`, table `t2` is matched but has no schema.
Its schema is indeed not rewritten, but its row stream is *not* passed
through: the second yielded stream is `unpivot_rows`' output
`[{k: "x", v: None}]` (built from the pivot fields accumulated from `t1` and
the last `fields_to_keep`), not `t2`'s input row `[{b: 1}]`. -/
theorem C1_counterexample :
    unpivot cfgC1 (fun _ => true) pkgC1 =
      .ok ([⟨"t1", some [⟨"v"⟩], []⟩,
            ⟨"t2", Option.none, [[("b", Value.int 1)]]⟩],
           [.ok [], .ok [[("k", Value.str "x"), ("v", Value.none)]]]) ∧
    (Except.ok [[("k", Value.str "x"), ("v", Value.none)]] :
        Except String (List Dict)) ≠
      .ok [[("b", Value.int 1)]] := by
  exact ⟨by decide, by decide⟩

/-! ## Claim C2: the row count law -/

/-- C2, counterexample.  `pkgC2` has two matched tables with schemas, one
input row each, and one Resolved Pivot Field of its own each (for `t1`,
`resolveSpecs` on its fields alone resolves exactly one field), so the claim
predicts `1 * 1 = 1` output row per table; the code accumulates the pivot
fields of *all* tables in one list and emits `1 * 2 = 2` rows per table. -/
theorem C2_counterexample :
    unpivot cfgC2 (fun _ => true) pkgC2 =
      .ok ([⟨"t1", some [⟨"v"⟩], [[("a", Value.int 1)]]⟩,
            ⟨"t2", some [⟨"v"⟩], [[("b", Value.int 2)]]⟩],
           [.ok [[("k", Value.str "x"), ("v", Value.int 1)],
                 [("k", Value.str "y"), ("v", Value.none)]],
            .ok [[("k", Value.str "x"), ("v", Value.none)],
                 [("k", Value.str "y"), ("v", Value.int 2)]]]) ∧
    resolveSpecs cfgC2.unpivotFields [⟨"a"⟩] [] =
      .ok ([], [⟨"a", some [("k", Value.str "x")]⟩]) ∧
    ([[("k", Value.str "x"), ("v", Value.int 1)],
      [("k", Value.str "y"), ("v", Value.none)]] : List Dict).length = 2 ∧
    (2 : Nat) ≠ 1 * 1 := by
  refine ⟨by decide, by decide, by decide, by decide⟩

/-! ## Claim C9: invalid regex patterns -/

/-- C9, counterexample.  The spec's pattern `(` is an invalid regex
(`re.compile` fails on it), yet on a package whose only table is not matched
by the Resource Matcher, `unpivot` raises no error at all: the patterns are
only compiled inside the per-resource loop, which never reaches them, and the
table's rows pass through. -/
theorem C9_counterexample :
    reCompile "(" = Option.none ∧
    unpivot cfgC9 (fun _ => false) pkgC9 =
      .ok ([⟨"t", some [⟨"a"⟩], [[("a", Value.int 1)]]⟩],
           [.ok [[("a", Value.int 1)]]]) := by
  exact ⟨by decide, by decide⟩

/-! ## Inversion lemmas for the generator model -/

theorem exBind_ok {e a b : Type} (x : a) (f : a → Except e b) :
    (Except.ok x >>= f : Except e b) = f x := rfl

theorem exBind_error {e a b : Type} (err : e) (f : a → Except e b) :
    (Except.error err >>= f : Except e b) = .error err := rfl

theorem exMap_ok {e a b : Type} (g : a → b) (x : a) :
    (g <$> (Except.ok x : Except e a) : Except e b) = .ok (g x) := rfl

theorem exMap_error {e a b : Type} (g : a → b) (err : e) :
    (g <$> (Except.error err : Except e a) : Except e b) = .error err := rfl

theorem exPure {e a : Type} (x : a) : (pure x : Except e a) = .ok x := rfl

theorem collectE_ok_cons {α β : Type} {f : α → Except String β} {x : α}
    {xs : List α} {ys : List β} (h : collectE f (x :: xs) = .ok ys) :
    ∃ y zs, f x = .ok y ∧ collectE f xs = .ok zs ∧ ys = y :: zs := by
  cases hfx : f x with
  | error err => simp [collectE, hfx, exBind_error] at h
  | ok y =>
    cases hxs : collectE f xs with
    | error err => simp [collectE, hfx, hxs, exBind_ok, exBind_error] at h
    | ok zs =>
      refine ⟨y, zs, rfl, rfl, ?_⟩
      simp [collectE, hfx, hxs, exBind_ok, exPure] at h
      exact h.symm

theorem collectE_ok_length {α β : Type} {f : α → Except String β}
    {l : List α} {ys : List β} (h : collectE f l = .ok ys) :
    ys.length = l.length := by
  induction l generalizing ys with
  | nil =>
    simp [collectE] at h
    simp [← h]
  | cons x xs ih =>
    obtain ⟨y, zs, _, hxs, rfl⟩ := collectE_ok_cons h
    simp [ih hxs]

theorem collectE_ok_get {α β : Type} {f : α → Except String β}
    {l : List α} {ys : List β} (h : collectE f l = .ok ys) :
    ∀ i (hi : i < l.length) (hy : i < ys.length),
      f (l.get ⟨i, hi⟩) = .ok (ys.get ⟨i, hy⟩) := by
  induction l generalizing ys with
  | nil => intro i hi hy; simp at hi
  | cons x xs ih =>
    obtain ⟨y, zs, hfx, hxs, rfl⟩ := collectE_ok_cons h
    intro i hi hy
    cases i with
    | zero => simpa using hfx
    | succ j => exact ih hxs j (by simpa using hi) (by simpa using hy)

theorem collectE_ok_mem {α β : Type} {f : α → Except String β}
    {l : List α} {ys : List β} {y : β} (h : collectE f l = .ok ys)
    (hm : y ∈ ys) : ∃ x ∈ l, f x = .ok y := by
  induction l generalizing ys with
  | nil =>
    simp [collectE] at h
    subst h
    simp at hm
  | cons x xs ih =>
    obtain ⟨z, zs, hfx, hxs, rfl⟩ := collectE_ok_cons h
    rcases List.mem_cons.mp hm with rfl | hmem
    · exact ⟨x, List.mem_cons_self x xs, hfx⟩
    · obtain ⟨x1, hx1, hfx1⟩ := ih hxs hmem
      exact ⟨x1, List.mem_cons_of_mem _ hx1, hfx1⟩

theorem collectE_ok_forall {α β : Type} {f : α → Except String β}
    {l : List α} {ys : List β} (h : collectE f l = .ok ys) :
    ∀ x ∈ l, ∃ y, f x = .ok y := by
  induction l generalizing ys with
  | nil => simp
  | cons x xs ih =>
    obtain ⟨y, zs, hfx, hxs, rfl⟩ := collectE_ok_cons h
    intro x1 hx1
    rcases List.mem_cons.mp hx1 with rfl | hmem
    · exact ⟨y, hfx⟩
    · exact ih hxs x1 hmem

theorem collectE_all_ok {α β : Type} (g : α → β) (l : List α) :
    collectE (fun x => Except.ok (g x)) l = .ok (l.map g) := by
  induction l with
  | nil => rfl
  | cons x xs ih => simp [collectE, ih, exBind_ok, exPure]

/-- Invert a successful `unpivotRows`: the output is the concatenation of one
successfully expanded segment per input row. -/
theorem unpivotRows_ok {rows : List Dict} {pivots : List PivotField}
    {keep : List String} {ev : FieldD} {outs : List Dict}
    (h : unpivotRows rows pivots keep ev = .ok outs) :
    ∃ segs : List (List Dict),
      collectE (fun row => collectE (fun uf => makeRow uf keep ev row) pivots)
          rows = .ok segs ∧
      outs = segs.flatten := by
  unfold unpivotRows at h
  cases hc : collectE
      (fun row => collectE (fun uf => makeRow uf keep ev row) pivots) rows with
  | error err => rw [hc] at h; simp [Except.map] at h
  | ok segs =>
    rw [hc] at h
    simp [Except.map] at h
    exact ⟨segs, rfl, h.symm⟩

/-- The flattened output of a successful per-row expansion has
`|rows| * |pivots|` entries. -/
theorem collectE_segs_length {rows : List Dict} {pivots : List PivotField}
    {keep : List String} {ev : FieldD} {segs : List (List Dict)}
    (hsegs : collectE
        (fun row => collectE (fun uf => makeRow uf keep ev row) pivots) rows =
      .ok segs) :
    segs.flatten.length = rows.length * pivots.length := by
  induction rows generalizing segs with
  | nil =>
    simp [collectE] at hsegs
    simp [hsegs]
  | cons row rest ih =>
    obtain ⟨seg, segs1, hrow, hrest, rfl⟩ := collectE_ok_cons hsegs
    have hlen : seg.length = pivots.length := collectE_ok_length hrow
    simp only [List.flatten_cons, List.length_append, List.length_cons, hlen,
      ih hrest, Nat.succ_mul]
    omega

/-- A successful expansion has `|rows| * |pivots|` output rows. -/
theorem unpivotRows_ok_length {rows : List Dict} {pivots : List PivotField}
    {keep : List String} {ev : FieldD} {outs : List Dict}
    (h : unpivotRows rows pivots keep ev = .ok outs) :
    outs.length = rows.length * pivots.length := by
  obtain ⟨segs, hsegs, rfl⟩ := unpivotRows_ok h
  exact collectE_segs_length hsegs

/-- When `fields_to_keep` has been assigned, the row pass always succeeds and
yields, in package order, the original rows for unmatched resources and
`unpivot_rows`\' stream for matched ones. -/
theorem rowPass_some (m : String → Bool) (pivots : List PivotField)
    (keep : List String) (ev : FieldD) (rs : List Resource) :
    rowPass m pivots (some keep) ev rs =
      .ok (rs.map (fun r =>
        if m r.name then unpivotRows r.rows pivots keep ev
        else .ok r.rows)) := by
  induction rs with
  | nil => rfl
  | cons r rest ih =>
    simp only [rowPass] at ih
    by_cases hm : m r.name <;>
      simp [rowPass, collectE, hm, ih, exBind_ok, exPure]

/-- Invert one step of the schema pass at an unmatched resource. -/
theorem schemaPass_cons_unmatched {cfg : Config} {m : String → Bool}
    {r : Resource} {rest : List Resource} {acc : List PivotField}
    {ftk : Option (List String)}
    {out : List Resource × List PivotField × Option (List String)}
    (hm : m r.name = false)
    (h : schemaPass cfg m (r :: rest) acc ftk = .ok out) :
    ∃ rs1 acc1 ftk1,
      schemaPass cfg m rest acc ftk = .ok (rs1, acc1, ftk1) ∧
      out = (r :: rs1, acc1, ftk1) := by
  rw [schemaPass] at h
  rw [hm] at h
  simp only [Bool.false_eq_true, if_false] at h
  cases hrec : schemaPass cfg m rest acc ftk with
  | error err => rw [hrec] at h; simp [exBind_error] at h
  | ok trip =>
    obtain ⟨rs1, acc1, ftk1⟩ := trip
    rw [hrec] at h
    simp only [exBind_ok, exPure] at h
    exact ⟨rs1, acc1, ftk1, rfl, (Except.ok.inj h).symm⟩

/-- Invert one step of the schema pass at a matched resource without a
schema. -/
theorem schemaPass_cons_noschema {cfg : Config} {m : String → Bool}
    {r : Resource} {rest : List Resource} {acc : List PivotField}
    {ftk : Option (List String)}
    {out : List Resource × List PivotField × Option (List String)}
    (hm : m r.name = true) (hs : r.schema = Option.none)
    (h : schemaPass cfg m (r :: rest) acc ftk = .ok out) :
    ∃ rs1 acc1 ftk1,
      schemaPass cfg m rest acc ftk = .ok (rs1, acc1, ftk1) ∧
      out = (r :: rs1, acc1, ftk1) := by
  rw [schemaPass] at h
  rw [hm, hs] at h
  simp only [if_true] at h
  cases hrec : schemaPass cfg m rest acc ftk with
  | error err => rw [hrec] at h; simp [exBind_error] at h
  | ok trip =>
    obtain ⟨rs1, acc1, ftk1⟩ := trip
    rw [hrec] at h
    simp only [exBind_ok, exPure] at h
    exact ⟨rs1, acc1, ftk1, rfl, (Except.ok.inj h).symm⟩

/-- Invert one step of the schema pass at a matched resource with a schema. -/
theorem schemaPass_cons_schema {cfg : Config} {m : String → Bool}
    {r : Resource} {rest : List Resource} {acc : List PivotField}
    {ftk : Option (List String)} {fields : List FieldD}
    {out : List Resource × List PivotField × Option (List String)}
    (hm : m r.name = true) (hs : r.schema = some fields)
    (h : schemaPass cfg m (r :: rest) acc ftk = .ok out) :
    ∃ kept acc1 rs1 acc2 ftk1,
      resolveSpecs cfg.unpivotFields fields acc = .ok (kept, acc1) ∧
      schemaPass cfg m rest acc1 (some (kept.map FieldD.name)) =
        .ok (rs1, acc2, ftk1) ∧
      out = ({ r with
                schema := some (kept ++ cfg.extraKeys ++ [cfg.extraValue]) }
               :: rs1, acc2, ftk1) := by
  rw [schemaPass] at h
  rw [hm, hs] at h
  simp only [if_true] at h
  cases hspec : resolveSpecs cfg.unpivotFields fields acc with
  | error err => rw [hspec] at h; simp [exBind_error] at h
  | ok kp =>
    obtain ⟨kept, acc1⟩ := kp
    rw [hspec] at h
    simp only [exBind_ok] at h
    cases hrec : schemaPass cfg m rest acc1 (some (kept.map FieldD.name)) with
    | error err => rw [hrec] at h; simp [exBind_error] at h
    | ok trip =>
      obtain ⟨rs1, acc2, ftk1⟩ := trip
      rw [hrec] at h
      simp only [exBind_ok, exPure] at h
      exact ⟨kept, acc1, rs1, acc2, ftk1, rfl, hrec, (Except.ok.inj h).symm⟩

/-- The schema pass leaves matched resources without a schema untouched (and
in place). -/
theorem schemaPass_preserve (cfg : Config) (m : String → Bool) :
    ∀ (pkg : List Resource) (acc : List PivotField)
      (ftk : Option (List String)) rs1 acc1 ftk1,
      schemaPass cfg m pkg acc ftk = .ok (rs1, acc1, ftk1) →
      ∀ i (hi : i < pkg.length), m (pkg.get ⟨i, hi⟩).name = true →
        (pkg.get ⟨i, hi⟩).schema = Option.none →
        rs1[i]? = some (pkg.get ⟨i, hi⟩) := by
  intro pkg
  induction pkg with
  | nil => intro acc ftk rs1 acc1 ftk1 h i hi; simp at hi
  | cons r rest ih =>
    intro acc ftk rs1 acc1 ftk1 h i hi hm hs
    cases i with
    | zero =>
      simp only [List.get] at hm hs
      obtain ⟨rs2, acc2, ftk2, _, hout⟩ := schemaPass_cons_noschema hm hs h
      rw [(Prod.mk.injEq ..).mp hout |>.1]
      simp
    | succ j =>
      simp only [List.get] at hm hs
      by_cases hmr : m r.name
      · cases hsr : r.schema with
        | none =>
          obtain ⟨rs2, acc2, ftk2, hrec, hout⟩ :=
            schemaPass_cons_noschema hmr hsr h
          rw [(Prod.mk.injEq ..).mp hout |>.1]
          simpa using ih acc ftk rs2 acc2 ftk2 hrec j (by simpa using hi) hm hs
        | some fields =>
          obtain ⟨kept, acc2, rs2, acc3, ftk2, _, hrec, hout⟩ :=
            schemaPass_cons_schema hmr hsr h
          rw [(Prod.mk.injEq ..).mp hout |>.1]
          simpa using ih acc2 (some (kept.map FieldD.name)) rs2 acc3 ftk2
            hrec j (by simpa using hi) hm hs
      · obtain ⟨rs2, acc2, ftk2, hrec, hout⟩ :=
          schemaPass_cons_unmatched (Bool.not_eq_true _ |>.mp hmr) h
        rw [(Prod.mk.injEq ..).mp hout |>.1]
        simpa using ih acc ftk rs2 acc2 ftk2 hrec j (by simpa using hi) hm hs

/-- C1, amended.  A table matched by the Resource Matcher but lacking a
schema is skipped by schema rewriting only: its descriptor survives the
schema pass unchanged, but in the row pass the Row Expander *is* attached to
its stream — `unpivot_rows` with the globally accumulated pivot fields and
the last matched table's `fields_to_keep` — so its rows are not passed
through unchanged. -/
theorem C1_amended (cfg : Config) (m : String → Bool) (pkg : List Resource)
    (rs1 : List Resource) (pivots : List PivotField) (keep : List String)
    (h : schemaPass cfg m pkg [] Option.none = .ok (rs1, pivots, some keep))
    (i : Nat) (hi : i < pkg.length)
    (hm : m (pkg.get ⟨i, hi⟩).name = true)
    (hs : (pkg.get ⟨i, hi⟩).schema = Option.none) :
    rs1[i]? = some (pkg.get ⟨i, hi⟩) ∧
    ∃ outs,
      rowPass m pivots (some keep) cfg.extraValue pkg = .ok outs ∧
      outs[i]? =
        some (unpivotRows (pkg.get ⟨i, hi⟩).rows pivots keep cfg.extraValue) := by
  refine ⟨schemaPass_preserve cfg m pkg [] Option.none rs1 pivots (some keep)
    h i hi hm hs, ?_⟩
  refine ⟨_, rowPass_some m pivots keep cfg.extraValue pkg, ?_⟩
  rw [List.getElem?_map, List.getElem?_eq_getElem (by simpa using hi)]
  have hm2 : m pkg[i].name = true := hm
  simp [hm2]

/-- Witness for `C1_amended` at the package `pkgC1`, table index 1 (`t2`,
matched, no schema). -/
theorem C1_amended_witness :
    schemaPass cfgC1 (fun _ => true) pkgC1 [] Option.none =
      .ok ([⟨"t1", some [⟨"v"⟩], []⟩,
            ⟨"t2", Option.none, [[("b", Value.int 1)]]⟩],
           [⟨"a", some [("k", Value.str "x")]⟩], some []) ∧
    (1 : Nat) < pkgC1.length ∧
    (fun (_ : String) => true) (pkgC1.get ⟨1, by decide⟩).name = true ∧
    (pkgC1.get ⟨1, by decide⟩).schema = Option.none ∧
    (([⟨"t1", some [⟨"v"⟩], []⟩,
       ⟨"t2", Option.none, [[("b", Value.int 1)]]⟩] : List Resource)[1]? =
        some (pkgC1.get ⟨1, by decide⟩) ∧
     ∃ outs,
       rowPass (fun _ => true) [⟨"a", some [("k", Value.str "x")]⟩] (some [])
           cfgC1.extraValue pkgC1 = .ok outs ∧
       outs[1]? =
         some (unpivotRows (pkgC1.get ⟨1, by decide⟩).rows
           [⟨"a", some [("k", Value.str "x")]⟩] [] cfgC1.extraValue)) :=
  ⟨by decide, by decide, by decide, by decide,
   C1_amended cfgC1 (fun _ => true) pkgC1
     [⟨"t1", some [⟨"v"⟩], []⟩, ⟨"t2", Option.none, [[("b", Value.int 1)]]⟩]
     [⟨"a", some [("k", Value.str "x")]⟩] [] (by decide) 1 (by decide)
     (by decide) (by decide)⟩

/-- C2, amended.  For every package, after a completed schema pass a matched
table's stream is `unpivot_rows` with the globally accumulated pivot-field
list, so when expansion succeeds its output row count is the input row count
times the length of that *global* list (not the table's own pivot count);
for every unmatched table the output row count equals the input row count. -/
theorem C2_amended (cfg : Config) (m : String → Bool) (pkg : List Resource)
    (rs1 : List Resource) (pivots : List PivotField) (keep : List String)
    (h : schemaPass cfg m pkg [] Option.none = .ok (rs1, pivots, some keep))
    (i : Nat) (hi : i < pkg.length) :
    ∃ outs,
      rowPass m pivots (some keep) cfg.extraValue pkg = .ok outs ∧
      (m (pkg.get ⟨i, hi⟩).name = false →
        outs[i]? = some (.ok (pkg.get ⟨i, hi⟩).rows)) ∧
      (m (pkg.get ⟨i, hi⟩).name = true →
        outs[i]? =
          some (unpivotRows (pkg.get ⟨i, hi⟩).rows pivots keep
            cfg.extraValue) ∧
        ∀ rows,
          unpivotRows (pkg.get ⟨i, hi⟩).rows pivots keep cfg.extraValue =
            .ok rows →
          rows.length = (pkg.get ⟨i, hi⟩).rows.length * pivots.length) := by
  refine ⟨_, rowPass_some m pivots keep cfg.extraValue pkg, ?_, ?_⟩
  · intro hm
    have hm2 : m pkg[i].name = false := hm
    rw [List.getElem?_map, List.getElem?_eq_getElem (by simpa using hi)]
    simp [hm2]
  · intro hm
    have hm2 : m pkg[i].name = true := hm
    constructor
    · rw [List.getElem?_map, List.getElem?_eq_getElem (by simpa using hi)]
      simp [hm2]
    · intro rows hrows
      exact unpivotRows_ok_length hrows

/-- Witness for `C2_amended` at the two-table package `pkgC2`, index 0. -/
theorem C2_amended_witness :
    schemaPass cfgC2 (fun _ => true) pkgC2 [] Option.none =
      .ok ([⟨"t1", some [⟨"v"⟩], [[("a", Value.int 1)]]⟩,
            ⟨"t2", some [⟨"v"⟩], [[("b", Value.int 2)]]⟩],
           [⟨"a", some [("k", Value.str "x")]⟩,
            ⟨"b", some [("k", Value.str "y")]⟩], some []) ∧
    (0 : Nat) < pkgC2.length ∧
    (∃ outs,
      rowPass (fun _ => true)
          [⟨"a", some [("k", Value.str "x")]⟩,
           ⟨"b", some [("k", Value.str "y")]⟩] (some [])
          cfgC2.extraValue pkgC2 = .ok outs ∧
      ((fun (_ : String) => true) (pkgC2.get ⟨0, by decide⟩).name = false →
        outs[0]? = some (.ok (pkgC2.get ⟨0, by decide⟩).rows)) ∧
      ((fun (_ : String) => true) (pkgC2.get ⟨0, by decide⟩).name = true →
        outs[0]? =
          some (unpivotRows (pkgC2.get ⟨0, by decide⟩).rows
            [⟨"a", some [("k", Value.str "x")]⟩,
             ⟨"b", some [("k", Value.str "y")]⟩] [] cfgC2.extraValue) ∧
        ∀ rows,
          unpivotRows (pkgC2.get ⟨0, by decide⟩).rows
              [⟨"a", some [("k", Value.str "x")]⟩,
               ⟨"b", some [("k", Value.str "y")]⟩] [] cfgC2.extraValue =
            .ok rows →
          rows.length =
            (pkgC2.get ⟨0, by decide⟩).rows.length *
              ([⟨"a", some [("k", Value.str "x")]⟩,
                ⟨"b", some [("k", Value.str "y")]⟩] :
                  List PivotField).length)) :=
  ⟨by decide, by decide,
   C2_amended cfgC2 (fun _ => true) pkgC2
     [⟨"t1", some [⟨"v"⟩], [[("a", Value.int 1)]]⟩,
      ⟨"t2", some [⟨"v"⟩], [[("b", Value.int 2)]]⟩]
     [⟨"a", some [("k", Value.str "x")]⟩, ⟨"b", some [("k", Value.str "y")]⟩]
     [] (by decide) 0 (by decide)⟩

/-! ## Dictionary lemmas -/

theorem dictGet?_dictSet_self (d : Dict) (k : String) (v : Value) :
    dictGet? (dictSet d k v) k = some v := by
  unfold dictSet
  by_cases h : d.any (fun p => p.1 == k)
  · rw [if_pos h]
    induction d with
    | nil => simp at h
    | cons p rest ih =>
      by_cases hp : p.1 == k
      · simp [dictGet?, List.find?, hp]
      · simp only [List.any_cons, Bool.or_eq_true] at h
        rcases h with h1 | h2
        · exact absurd h1 hp
        · simp only [List.map_cons, if_neg hp]
          simp only [dictGet?, List.find?, hp]
          exact ih h2
  · rw [if_neg h]
    induction d with
    | nil => simp [dictGet?]
    | cons p rest ih =>
      by_cases hp : p.1 == k
      · exact absurd (by simp [List.any_cons, hp]) h
      · simp only [List.cons_append]
        simp only [dictGet?, List.find?, hp]
        exact ih (fun hc => h (by simp [List.any_cons, hc]))

/-- Updating a key never touches the other entries\' names: the key list is
unchanged for an overwrite and extended by `k` for a fresh key. -/
theorem dictKeys_dictSet (d : Dict) (k : String) (v : Value) :
    dictKeys (dictSet d k v) =
      if d.any (fun p => p.1 == k) then dictKeys d else dictKeys d ++ [k] := by
  unfold dictSet dictKeys
  by_cases h : d.any (fun p => p.1 == k)
  · rw [if_pos h, if_pos h, List.map_map]
    refine List.map_congr_left ?_
    intro p _
    by_cases hp : p.1 == k
    · have : p.1 = k := by simpa using hp
      simp [Function.comp, hp, this]
    · simp [Function.comp, hp]
  · rw [if_neg h, if_neg h, List.map_append]
    rfl

theorem mem_dictKeys_dictSet (d : Dict) (k : String) (v : Value) (x : String) :
    x ∈ dictKeys (dictSet d k v) ↔ x ∈ dictKeys d ∨ x = k := by
  rw [dictKeys_dictSet]
  by_cases h : d.any (fun p => p.1 == k)
  · rw [if_pos h]
    constructor
    · exact Or.inl
    · rintro (hx | rfl)
      · exact hx
      · rcases List.any_eq_true.mp h with ⟨p, hp, hpk⟩
        have : p.1 = x := by simpa using hpk
        exact this ▸ List.mem_map_of_mem _ hp
  · rw [if_neg h]
    simp [List.mem_append]

/-! ## Lemmas about `makeRow` -/

/-- A row missing one of the kept fields makes the kept-field loop raise a
`KeyError`, whatever the accumulator. -/
theorem keepStep_fold_error (row : Dict) :
    ∀ (keep : List String) (acc : Dict),
      (∃ f ∈ keep, dictGet? row f = Option.none) →
      ∃ e, keep.foldlM (keepStep row) acc = .error e := by
  intro keep
  induction keep with
  | nil => intro acc h; simp at h
  | cons f fs ih =>
    intro acc h
    cases hf : dictGet? row f with
    | none =>
      refine ⟨"KeyError: " ++ f, ?_⟩
      simp [List.foldlM_cons, keepStep, hf, exBind_error]
    | some v =>
      rcases h with ⟨f0, hf0, hget⟩
      rcases List.mem_cons.mp hf0 with rfl | hmem
      · rw [hf] at hget; cases hget
      · obtain ⟨e, he⟩ := ih (dictSet acc f v) ⟨f0, hmem, hget⟩
        refine ⟨e, ?_⟩
        simp [List.foldlM_cons, keepStep, hf, exBind_ok, exPure, he]

/-- When the row has every kept field, the kept-field loop succeeds and the
result's keys are the accumulator's keys plus the kept names. -/
theorem keepStep_fold_ok (row : Dict) :
    ∀ (keep : List String) (acc : Dict),
      (∀ f ∈ keep, dictGet? row f ≠ Option.none) →
      ∃ res, keep.foldlM (keepStep row) acc = .ok res ∧
        ∀ x, x ∈ dictKeys res ↔ x ∈ dictKeys acc ∨ x ∈ keep := by
  intro keep
  induction keep with
  | nil =>
    intro acc _
    exact ⟨acc, rfl, by simp⟩
  | cons f fs ih =>
    intro acc h
    cases hf : dictGet? row f with
    | none => exact absurd hf (h f (List.mem_cons_self f fs))
    | some v =>
      obtain ⟨res, hres, hkeys⟩ :=
        ih (dictSet acc f v) (fun g hg => h g (List.mem_cons_of_mem f hg))
      refine ⟨res, ?_, ?_⟩
      · simp [List.foldlM_cons, keepStep, hf, exBind_ok, exPure, hres]
      · intro x
        rw [hkeys x, mem_dictKeys_dictSet]
        simp [List.mem_cons]
        tauto

/-- Invert a successful `makeRow`. -/
theorem makeRow_ok_inv {pf : PivotField} {keep : List String} {ev : FieldD}
    {row : Dict} {out : Dict} (h : makeRow pf keep ev row = .ok out) :
    ∃ kd res, pf.keys = some kd ∧
      keep.foldlM (keepStep row) kd = .ok res ∧
      out = dictSet res ev.name ((dictGet? row pf.name).getD Value.none) := by
  unfold makeRow at h
  cases hk : pf.keys with
  | none => rw [hk] at h; cases h
  | some kd =>
    rw [hk] at h
    simp only [] at h
    cases hfold : keep.foldlM (keepStep row) kd with
    | error e => rw [hfold] at h; simp [exBind_error] at h
    | ok res =>
      rw [hfold] at h
      simp only [exBind_ok, exPure] at h
      exact ⟨kd, res, rfl, hfold, (Except.ok.inj h).symm⟩

/-- A `makeRow` on a row missing a kept field always raises. -/
theorem makeRow_error_of_missing (pf : PivotField) (keep : List String)
    (ev : FieldD) (row : Dict)
    (hm : ∃ f ∈ keep, dictGet? row f = Option.none) :
    ∃ e, makeRow pf keep ev row = .error e := by
  cases hk : pf.keys with
  | none => exact ⟨"KeyError: 'keys'", by rw [makeRow, hk]⟩
  | some kd =>
    obtain ⟨e, he⟩ := keepStep_fold_error row keep kd hm
    refine ⟨e, ?_⟩
    rw [makeRow, hk]
    simp [he, exBind_error]

/-! ## Claim C10: strict kept-field lookup, permissive pivot lookup -/

/-- C10.  Kept-field values are read with the direct `row[field]` lookup: if
an input row lacks some name in `fields_to_keep` (and there is at least one
pivot field, so that an output row for it is produced at all), the expansion
of the stream raises a `KeyError`; only the pivoted field's own value is read
with the defaulting `row.get(...)`: a row with all kept fields but without
the pivoted field's name yields a successful output row whose value field is
`None`. -/
theorem C10_lookup (rows : List Dict) (pivots : List PivotField)
    (keep : List String) (ev : FieldD) (row : Dict) (hrow : row ∈ rows) :
    ((∃ f ∈ keep, dictGet? row f = Option.none) → pivots ≠ [] →
      ∃ e, unpivotRows rows pivots keep ev = .error e) ∧
    (∀ pf ∈ pivots, ∀ kd, pf.keys = some kd →
      (∀ f ∈ keep, dictGet? row f ≠ Option.none) →
      dictGet? row pf.name = Option.none →
      ∃ out, makeRow pf keep ev row = .ok out ∧
        dictGet? out ev.name = some Value.none) := by
  constructor
  · intro hmiss hp
    cases hres : unpivotRows rows pivots keep ev with
    | error e => exact ⟨e, rfl⟩
    | ok outs =>
      exfalso
      obtain ⟨segs, hsegs, _⟩ := unpivotRows_ok hres
      obtain ⟨seg, hseg⟩ := collectE_ok_forall hsegs row hrow
      obtain ⟨pf, hpf⟩ : ∃ pf, pf ∈ pivots := by
        cases pivots with
        | nil => exact absurd rfl hp
        | cons pf rest => exact ⟨pf, List.mem_cons_self pf rest⟩
      obtain ⟨o, ho⟩ := collectE_ok_forall hseg pf hpf
      obtain ⟨e, he⟩ := makeRow_error_of_missing pf keep ev row hmiss
      rw [he] at ho
      cases ho
  · intro pf _ kd hk hkeep hpv
    obtain ⟨res, hres, _⟩ := keepStep_fold_ok row keep kd hkeep
    refine ⟨dictSet res ev.name Value.none, ?_, dictGet?_dictSet_self ..⟩
    rw [makeRow, hk]
    simp [hres, exBind_ok, exPure, hpv, Option.getD]

/-- Witness for `C10_lookup`: the row `{a: 1}` inside a one-row stream, with
`keep = ["b"]` missing from the row for the error half, and a pivot field
named `c` absent from the row for the `None` half. -/
theorem C10_lookup_witness :
    ([[("a", Value.int 1)]] : List Dict) = [[("a", Value.int 1)]] ∧
    ([("a", Value.int 1)] : Dict) ∈ ([[("a", Value.int 1)]] : List Dict) ∧
    (((∃ f ∈ ["b"], dictGet? [("a", Value.int 1)] f = Option.none) →
        ([⟨"c", some []⟩] : List PivotField) ≠ [] →
        ∃ e, unpivotRows [[("a", Value.int 1)]] [⟨"c", some []⟩] ["b"] ⟨"v"⟩ =
          .error e) ∧
      (∀ pf ∈ ([⟨"c", some []⟩] : List PivotField), ∀ kd, pf.keys = some kd →
        (∀ f ∈ ["b"], dictGet? [("a", Value.int 1)] f ≠ Option.none) →
        dictGet? [("a", Value.int 1)] pf.name = Option.none →
        ∃ out, makeRow pf ["b"] ⟨"v"⟩ [("a", Value.int 1)] = .ok out ∧
          dictGet? out (FieldD.mk "v").name = some Value.none)) :=
  ⟨rfl, by decide,
   C10_lookup [[("a", Value.int 1)]] [⟨"c", some []⟩] ["b"] ⟨"v"⟩
     [("a", Value.int 1)] (by decide)⟩

/-! ## Claim C4: output-row field completeness -/

/-- C4, counterexample.  The emitted row `{quarter:"Q", region:"e",
amount:10}` contains the key `quarter`, which comes from the *spec's* `keys`
mapping, while `fieldsToKeep ∪ {extraKeys' names} ∪ {extraValue.name}` is
`{region, amount}` here (extraKeys is empty): the claimed key-set equality
fails. -/
theorem C4_counterexample :
    unpivot cfgC4 (fun _ => true) pkgC4 =
      .ok ([⟨"t", some [⟨"region"⟩, ⟨"amount"⟩],
              [[("region", Value.str "e"), ("q1", Value.int 10)]]⟩],
           [.ok [[("quarter", Value.str "Q"), ("region", Value.str "e"),
                  ("amount", Value.int 10)]]]) ∧
    dictKeys [("quarter", Value.str "Q"), ("region", Value.str "e"),
      ("amount", Value.int 10)] = ["quarter", "region", "amount"] ∧
    "quarter" ∈ ["quarter", "region", "amount"] ∧
    "quarter" ∉
      ["region"] ++ (cfgC4.extraKeys.map (fun f => f.name)) ++
        [cfgC4.extraValue.name] := by
  refine ⟨by decide, by decide, by decide, by decide⟩

/-- The keys accumulated by the kept-field loop are exactly the initial keys
plus the kept names, whenever the loop succeeds. -/
theorem keepStep_fold_keys (row : Dict) :
    ∀ (keep : List String) (acc res : Dict),
      keep.foldlM (keepStep row) acc = .ok res →
      ∀ x, x ∈ dictKeys res ↔ x ∈ dictKeys acc ∨ x ∈ keep := by
  intro keep
  induction keep with
  | nil =>
    intro acc res h x
    simp only [List.foldlM_nil, exPure] at h
    rw [← Except.ok.inj h]
    simp
  | cons f fs ih =>
    intro acc res h x
    cases hf : dictGet? row f with
    | none => simp [List.foldlM_cons, keepStep, hf, exBind_error] at h
    | some v =>
      simp only [List.foldlM_cons, keepStep, hf, exBind_ok, exPure] at h
      rw [ih _ _ h x, mem_dictKeys_dictSet]
      simp only [List.mem_cons]
      tauto

/-- C4, amended.  Every row emitted by `unpivot_rows` has key set equal to
the union of the *resolved pivot field\'s own key names*, `fieldsToKeep`, and
the `extraValue` name — the configured `extraKeys` enter every rewritten
schema but never the emitted rows (the two coincide only when callers give
`extraKeys` the same names as the specs\' `keys` mappings). -/
theorem C4_amended (rows : List Dict) (pivots : List PivotField)
    (keep : List String) (ev : FieldD) (outs : List Dict) (o : Dict)
    (h : unpivotRows rows pivots keep ev = .ok outs) (ho : o ∈ outs) :
    ∃ pf, pf ∈ pivots ∧ ∃ kd, pf.keys = some kd ∧
      ∀ x, x ∈ dictKeys o ↔
        (x ∈ dictKeys kd ∨ x ∈ keep ∨ x = ev.name) := by
  obtain ⟨segs, hsegs, rfl⟩ := unpivotRows_ok h
  rcases List.mem_flatten.mp ho with ⟨seg, hsegmem, hoseg⟩
  obtain ⟨row, _, hrowok⟩ := collectE_ok_mem hsegs hsegmem
  obtain ⟨pf, hpf, hmk⟩ := collectE_ok_mem hrowok hoseg
  obtain ⟨kd, res, hk, hfold, rfl⟩ := makeRow_ok_inv hmk
  refine ⟨pf, hpf, kd, hk, ?_⟩
  intro x
  rw [mem_dictKeys_dictSet, keepStep_fold_keys row keep kd res hfold x]
  tauto

/-- Witness for `C4_amended`: the single output row of the `cfgC4` expansion
has key set `{quarter} ∪ {region} ∪ {amount}`. -/
theorem C4_amended_witness :
    unpivotRows [[("region", Value.str "e"), ("q1", Value.int 10)]]
        [⟨"q1", some [("quarter", Value.str "Q")]⟩] ["region"] ⟨"amount"⟩ =
      .ok [[("quarter", Value.str "Q"), ("region", Value.str "e"),
            ("amount", Value.int 10)]] ∧
    ([("quarter", Value.str "Q"), ("region", Value.str "e"),
      ("amount", Value.int 10)] : Dict) ∈
      ([[("quarter", Value.str "Q"), ("region", Value.str "e"),
         ("amount", Value.int 10)]] : List Dict) ∧
    (∃ pf, pf ∈ ([⟨"q1", some [("quarter", Value.str "Q")]⟩] :
        List PivotField) ∧ ∃ kd, pf.keys = some kd ∧
      ∀ x, x ∈ dictKeys [("quarter", Value.str "Q"),
          ("region", Value.str "e"), ("amount", Value.int 10)] ↔
        (x ∈ dictKeys kd ∨ x ∈ ["region"] ∨ x = (FieldD.mk "amount").name)) :=
  ⟨by decide, by decide,
   C4_amended [[("region", Value.str "e"), ("q1", Value.int 10)]]
     [⟨"q1", some [("quarter", Value.str "Q")]⟩] ["region"] ⟨"amount"⟩
     [[("quarter", Value.str "Q"), ("region", Value.str "e"),
       ("amount", Value.int 10)]]
     [("quarter", Value.str "Q"), ("region", Value.str "e"),
      ("amount", Value.int 10)] (by decide) (by decide)⟩

/-! ## Claim C6: the ordering law -/

/-- C6.  A successful expansion is the concatenation, in input-row order, of
one segment per input row; the `i`-th segment has exactly one entry per
resolved pivot field, in the order of the pivot-field list, and it sits as a
contiguous block before the segment of the next input row. -/
theorem C6_ordering (rows : List Dict) (pivots : List PivotField)
    (keep : List String) (ev : FieldD) (outs : List Dict)
    (h : unpivotRows rows pivots keep ev = .ok outs) :
    ∃ segs : List (List Dict),
      outs = segs.flatten ∧ segs.length = rows.length ∧
      ∀ i (hi : i < rows.length) (hs : i < segs.length),
        (segs.get ⟨i, hs⟩).length = pivots.length ∧
        ∀ j (hj : j < pivots.length) (hj2 : j < (segs.get ⟨i, hs⟩).length),
          makeRow (pivots.get ⟨j, hj⟩) keep ev (rows.get ⟨i, hi⟩) =
            .ok ((segs.get ⟨i, hs⟩).get ⟨j, hj2⟩) := by
  obtain ⟨segs, hsegs, rfl⟩ := unpivotRows_ok h
  refine ⟨segs, rfl, collectE_ok_length hsegs, ?_⟩
  intro i hi hs
  have hseg := collectE_ok_get hsegs i hi hs
  exact ⟨collectE_ok_length hseg, fun j hj hj2 => collectE_ok_get hseg j hj hj2⟩

/-- Witness for `C6_ordering`: two input rows and two pivot fields give the
four outputs in row-major, pivot-ordered blocks. -/
theorem C6_ordering_witness :
    unpivotRows [[("a", Value.int 1)], [("a", Value.int 2)]]
        [⟨"a", some [("k", Value.str "x")]⟩, ⟨"b", some [("k", Value.str "y")]⟩]
        [] ⟨"v"⟩ =
      .ok [[("k", Value.str "x"), ("v", Value.int 1)],
           [("k", Value.str "y"), ("v", Value.none)],
           [("k", Value.str "x"), ("v", Value.int 2)],
           [("k", Value.str "y"), ("v", Value.none)]] ∧
    (∃ segs : List (List Dict),
      ([[("k", Value.str "x"), ("v", Value.int 1)],
        [("k", Value.str "y"), ("v", Value.none)],
        [("k", Value.str "x"), ("v", Value.int 2)],
        [("k", Value.str "y"), ("v", Value.none)]] : List Dict) =
          segs.flatten ∧
      segs.length =
        ([[("a", Value.int 1)], [("a", Value.int 2)]] : List Dict).length ∧
      ∀ i (hi : i < ([[("a", Value.int 1)], [("a", Value.int 2)]] :
          List Dict).length) (hs : i < segs.length),
        (segs.get ⟨i, hs⟩).length =
          ([⟨"a", some [("k", Value.str "x")]⟩,
            ⟨"b", some [("k", Value.str "y")]⟩] : List PivotField).length ∧
        ∀ j (hj : j < ([⟨"a", some [("k", Value.str "x")]⟩,
            ⟨"b", some [("k", Value.str "y")]⟩] : List PivotField).length)
            (hj2 : j < (segs.get ⟨i, hs⟩).length),
          makeRow (([⟨"a", some [("k", Value.str "x")]⟩,
              ⟨"b", some [("k", Value.str "y")]⟩] :
                List PivotField).get ⟨j, hj⟩) [] ⟨"v"⟩
              (([[("a", Value.int 1)], [("a", Value.int 2)]] :
                List Dict).get ⟨i, hi⟩) =
            .ok ((segs.get ⟨i, hs⟩).get ⟨j, hj2⟩)) :=
  ⟨by decide,
   C6_ordering [[("a", Value.int 1)], [("a", Value.int 2)]]
     [⟨"a", some [("k", Value.str "x")]⟩, ⟨"b", some [("k", Value.str "y")]⟩]
     [] ⟨"v"⟩
     [[("k", Value.str "x"), ("v", Value.int 1)],
      [("k", Value.str "y"), ("v", Value.none)],
      [("k", Value.str "x"), ("v", Value.int 2)],
      [("k", Value.str "y"), ("v", Value.none)]] (by decide)⟩

/-- Spec resolution raises on the first invalid pattern, whatever the field
list and accumulator. -/
theorem resolveSpecs_error_of_invalid :
    ∀ (ufs : List UField), (∃ uf ∈ ufs, reCompile uf.name = Option.none) →
      ∀ (fields : List FieldD) (acc : List PivotField),
        ∃ e, resolveSpecs ufs fields acc = .error e := by
  intro ufs
  induction ufs with
  | nil => intro h; simp at h
  | cons uf rest ih =>
    intro h fields acc
    cases hc : reCompile uf.name with
    | none => exact ⟨"re.error: " ++ uf.name, by rw [resolveSpecs, hc]⟩
    | some r =>
      rcases h with ⟨uf0, huf0, hbad⟩
      rcases List.mem_cons.mp huf0 with rfl | hmem
      · rw [hc] at hbad; cases hbad
      · obtain ⟨e, he⟩ := ih ⟨uf0, hmem, hbad⟩
          (fields.filter (fun f => match_fields r false f.name))
          (acc ++ (fields.filter (fun f => match_fields r true f.name)).map
            (fun f => resolveField uf r f))
        exact ⟨e, by rw [resolveSpecs, hc]; exact he⟩

/-- The schema pass raises as soon as it reaches a matched resource with a
schema, when some spec has an invalid pattern. -/
theorem schemaPass_error_of_invalid (cfg : Config) (m : String → Bool)
    (hbad : ∃ uf ∈ cfg.unpivotFields, reCompile uf.name = Option.none) :
    ∀ (pkg : List Resource) (acc : List PivotField)
      (ftk : Option (List String)),
      (∃ r ∈ pkg, m r.name = true ∧ r.schema ≠ Option.none) →
      ∃ e, schemaPass cfg m pkg acc ftk = .error e := by
  intro pkg
  induction pkg with
  | nil => intro acc ftk h; simp at h
  | cons r rest ih =>
    intro acc ftk h
    by_cases hmr : m r.name
    · cases hsr : r.schema with
      | some fields =>
        obtain ⟨e, he⟩ := resolveSpecs_error_of_invalid cfg.unpivotFields
          hbad fields acc
        refine ⟨e, ?_⟩
        rw [schemaPass, hmr, hsr]
        simp only [if_true]
        rw [he]
        rfl
      | none =>
        have hrest : ∃ r0 ∈ rest, m r0.name = true ∧ r0.schema ≠ Option.none := by
          rcases h with ⟨r0, hr0, hmr0, hs0⟩
          rcases List.mem_cons.mp hr0 with rfl | hmem
          · exact absurd hsr hs0
          · exact ⟨r0, hmem, hmr0, hs0⟩
        obtain ⟨e, he⟩ := ih acc ftk hrest
        refine ⟨e, ?_⟩
        rw [schemaPass, hmr, hsr]
        simp only [if_true]
        rw [he]
        rfl
    · have hrest : ∃ r0 ∈ rest, m r0.name = true ∧ r0.schema ≠ Option.none := by
        rcases h with ⟨r0, hr0, hmr0, hs0⟩
        rcases List.mem_cons.mp hr0 with rfl | hmem
        · exact absurd hmr0 (by simpa using hmr)
        · exact ⟨r0, hmem, hmr0, hs0⟩
      obtain ⟨e, he⟩ := ih acc ftk hrest
      refine ⟨e, ?_⟩
      rw [schemaPass]
      rw [if_neg (by simpa using hmr)]
      rw [he]
      rfl

/-- C9, amended.  An invalid regex in a spec's `name` is only detected when
some matched table actually has a schema (the compile sits inside the
per-resource loop); in that case the error is raised by the schema pass,
before the mutated package or any row stream is produced — the whole
computation is an `error` carrying no output.  With no matched table with a
schema, the invalid pattern goes unnoticed. -/
theorem C9_amended (cfg : Config) (m : String → Bool) (pkg : List Resource)
    (hbad : ∃ uf ∈ cfg.unpivotFields, reCompile uf.name = Option.none)
    (hres : ∃ r ∈ pkg, m r.name = true ∧ r.schema ≠ Option.none) :
    ∃ e, unpivot cfg m pkg = .error e := by
  obtain ⟨e, he⟩ := schemaPass_error_of_invalid cfg m hbad pkg []
    Option.none hres
  refine ⟨e, ?_⟩
  unfold unpivot
  rw [he]
  rfl

/-- Witness for `C9_amended`: the invalid pattern `(` with one matched table
carrying a schema. -/
theorem C9_amended_witness :
    (∃ uf ∈ cfgC9.unpivotFields, reCompile uf.name = Option.none) ∧
    (∃ r ∈ pkgC9, (fun (_ : String) => true) r.name = true ∧
      r.schema ≠ Option.none) ∧
    (∃ e, unpivot cfgC9 (fun _ => true) pkgC9 = .error e) :=
  ⟨⟨⟨"(", [("k", Value.str "x")]⟩, by decide, by decide⟩,
   ⟨⟨"t", some [⟨"a"⟩], [[("a", Value.int 1)]]⟩, by decide, by decide, by decide⟩,
   C9_amended cfgC9 (fun _ => true) pkgC9
     ⟨⟨"(", [("k", Value.str "x")]⟩, by decide, by decide⟩
     ⟨⟨"t", some [⟨"a"⟩], [[("a", Value.int 1)]]⟩, by decide, by decide,
      by decide⟩⟩

/-! ## Claim C8: `match_fields` is full-string regex matching

Correctness of the backtracking matcher against the declarative semantics
`RMatch`: every result consumes a prefix in the language (soundness), and
every language split is realized by some result (completeness). -/

/-- Soundness of the star loop, given soundness of the body's matcher. -/
theorem starMatch_sound (a : RE)
    (hm : ∀ cs k p, p ∈ reMatch a cs k →
      ∃ pre, cs = pre ++ p.1 ∧ RMatch a pre) :
    ∀ (fuel : Nat) (cs : List Char) (k : Caps) (p : List Char × Caps),
      p ∈ starMatch (reMatch a) fuel cs k →
      ∃ pre, cs = pre ++ p.1 ∧ RMatch (.star a) pre := by
  intro fuel
  induction fuel with
  | zero =>
    intro cs k p hp
    simp only [starMatch, List.mem_singleton] at hp
    exact ⟨[], by simp [hp], RMatch.starNil⟩
  | succ fuel ih =>
    intro cs k p hp
    simp only [starMatch, List.mem_append, List.mem_singleton] at hp
    rcases hp with hp | hp
    · rcases List.mem_flatMap.mp hp with ⟨q, hq, hrec⟩
      have hq2 := List.mem_filter.mp hq
      obtain ⟨pre1, hcs, hm1⟩ := hm cs k q hq2.1
      obtain ⟨pre2, hq1, hm2⟩ := ih q.1 q.2 p hrec
      refine ⟨pre1 ++ pre2, ?_, RMatch.starCons hm1 hm2⟩
      rw [hcs, hq1, List.append_assoc]
    · exact ⟨[], by simp [hp], RMatch.starNil⟩

/-- Soundness: every matcher result splits the input into a consumed prefix
in the language of `r` and the returned suffix. -/
theorem reMatch_sound :
    ∀ (r : RE) (cs : List Char) (k : Caps) (p : List Char × Caps),
      p ∈ reMatch r cs k → ∃ pre, cs = pre ++ p.1 ∧ RMatch r pre := by
  intro r
  induction r with
  | eps =>
    intro cs k p hp
    simp only [reMatch, List.mem_singleton] at hp
    exact ⟨[], by simp [hp], RMatch.eps⟩
  | ch c =>
    intro cs k p hp
    cases cs with
    | nil => simp [reMatch] at hp
    | cons x rest =>
      simp only [reMatch] at hp
      by_cases hx : x = c
      · rw [if_pos hx] at hp
        simp only [List.mem_singleton] at hp
        subst hx
        exact ⟨[x], by simp [hp], RMatch.ch x⟩
      · rw [if_neg hx] at hp
        simp at hp
  | digit =>
    intro cs k p hp
    cases cs with
    | nil => simp [reMatch] at hp
    | cons x rest =>
      simp only [reMatch] at hp
      by_cases hx : x.isDigit
      · rw [if_pos hx] at hp
        simp only [List.mem_singleton] at hp
        exact ⟨[x], by simp [hp], RMatch.digit hx⟩
      · rw [if_neg hx] at hp
        simp at hp
  | seq a b iha ihb =>
    intro cs k p hp
    simp only [reMatch] at hp
    rcases List.mem_flatMap.mp hp with ⟨q, hq, hpb⟩
    obtain ⟨pre1, hcs, hm1⟩ := iha cs k q hq
    obtain ⟨pre2, hq1, hm2⟩ := ihb q.1 q.2 p hpb
    refine ⟨pre1 ++ pre2, ?_, RMatch.seq hm1 hm2⟩
    rw [hcs, hq1, List.append_assoc]
  | alt a b iha ihb =>
    intro cs k p hp
    simp only [reMatch, List.mem_append] at hp
    rcases hp with hp | hp
    · obtain ⟨pre, hcs, hm1⟩ := iha cs k p hp
      exact ⟨pre, hcs, RMatch.altL hm1⟩
    · obtain ⟨pre, hcs, hm1⟩ := ihb cs k p hp
      exact ⟨pre, hcs, RMatch.altR hm1⟩
  | star a iha =>
    intro cs k p hp
    simp only [reMatch] at hp
    exact starMatch_sound a iha cs.length cs k p hp
  | group n a iha =>
    intro cs k p hp
    simp only [reMatch] at hp
    rcases List.mem_map.mp hp with ⟨q, hq, rfl⟩
    obtain ⟨pre, hcs, hm1⟩ := iha cs k q hq
    exact ⟨pre, hcs, RMatch.group hm1⟩

/-- Any star derivation can be normalized to non-empty iterations. -/
theorem star_to_starN {a : RE} {s : List Char}
    (h : RMatch (.star a) s) : StarN a s := by
  generalize hre : RE.star a = re at h
  induction h with
  | eps => exact absurd hre (by intro hc; cases hc)
  | ch c => exact absurd hre (by intro hc; cases hc)
  | digit _ => exact absurd hre (by intro hc; cases hc)
  | seq _ _ _ _ => exact absurd hre (by intro hc; cases hc)
  | altL _ _ => exact absurd hre (by intro hc; cases hc)
  | altR _ _ => exact absurd hre (by intro hc; cases hc)
  | group _ _ => exact absurd hre (by intro hc; cases hc)
  | starNil => exact StarN.nil
  | starCons h1 h2 ih1 ih2 =>
    rename_i s1 s2
    injection hre with ha
    subst ha
    by_cases hne : s1 = []
    · rw [hne, List.nil_append]
      exact ih2 rfl
    · exact StarN.cons hne h1 (ih2 rfl)

/-- Stopping immediately is always among the star loop's results. -/
theorem starMatch_self_mem (m : List Char → Caps → List (List Char × Caps))
    (fuel : Nat) (cs : List Char) (k : Caps) :
    (cs, k) ∈ starMatch m fuel cs k := by
  cases fuel <;> simp [starMatch]

/-- Completeness of the star loop: a normalized star split is realized,
provided the fuel covers the consumed length. -/
theorem starMatch_complete (a : RE)
    (hc : ∀ (pre : List Char), RMatch a pre → ∀ (rest : List Char) (k : Caps),
      ∃ k2, (rest, k2) ∈ reMatch a (pre ++ rest) k) :
    ∀ (s : List Char), StarN a s →
      ∀ (rest : List Char) (k : Caps) (fuel : Nat), s.length ≤ fuel →
        ∃ k2, (rest, k2) ∈ starMatch (reMatch a) fuel (s ++ rest) k := by
  intro s hs
  induction hs with
  | nil =>
    intro rest k fuel _
    exact ⟨k, by simpa using starMatch_self_mem (reMatch a) fuel rest k⟩
  | cons hne hm hs2 ih =>
    intro rest k fuel hfuel
    rename_i s1 s2
    cases fuel with
    | zero =>
      exfalso
      have : 0 < s1.length := List.length_pos.mpr hne
      rw [List.length_append] at hfuel
      omega
    | succ fuel =>
      obtain ⟨k1, hk1⟩ := hc s1 hm (s2 ++ rest) k
      obtain ⟨k2, hk2⟩ := ih rest k1 fuel (by
        have : 0 < s1.length := List.length_pos.mpr hne
        rw [List.length_append] at hfuel
        omega)
      refine ⟨k2, ?_⟩
      rw [List.append_assoc]
      simp only [starMatch, List.mem_append]
      left
      refine List.mem_flatMap.mpr ⟨(s2 ++ rest, k1), ?_, hk2⟩
      refine List.mem_filter.mpr ⟨hk1, ?_⟩
      have : 0 < s1.length := List.length_pos.mpr hne
      simp only [List.length_append, decide_eq_true_eq]
      omega

/-- Completeness: every language split of the input is realized by some
matcher result. -/
theorem reMatch_complete :
    ∀ (r : RE) (pre : List Char), RMatch r pre →
      ∀ (rest : List Char) (k : Caps),
        ∃ k2, (rest, k2) ∈ reMatch r (pre ++ rest) k := by
  intro r
  induction r with
  | eps =>
    intro pre h rest k
    cases h
    exact ⟨k, by simp [reMatch]⟩
  | ch c =>
    intro pre h rest k
    cases h
    exact ⟨k, by simp [reMatch]⟩
  | digit =>
    intro pre h rest k
    cases h with
    | digit hd => exact ⟨k, by simp [reMatch, hd]⟩
  | seq a b iha ihb =>
    intro pre h rest k
    cases h with
    | seq h1 h2 =>
      rename_i s1 s2
      obtain ⟨k1, hk1⟩ := iha s1 h1 (s2 ++ rest) k
      obtain ⟨k2, hk2⟩ := ihb s2 h2 rest k1
      refine ⟨k2, ?_⟩
      rw [List.append_assoc]
      simp only [reMatch]
      exact List.mem_flatMap.mpr ⟨(s2 ++ rest, k1), hk1, hk2⟩
  | alt a b iha ihb =>
    intro pre h rest k
    cases h with
    | altL h1 =>
      obtain ⟨k1, hk1⟩ := iha pre h1 rest k
      exact ⟨k1, by simp only [reMatch, List.mem_append]; exact Or.inl hk1⟩
    | altR h1 =>
      obtain ⟨k1, hk1⟩ := ihb pre h1 rest k
      exact ⟨k1, by simp only [reMatch, List.mem_append]; exact Or.inr hk1⟩
  | star a iha =>
    intro pre h rest k
    obtain ⟨k2, hk2⟩ := starMatch_complete a iha pre (star_to_starN h) rest k
      (pre ++ rest).length (by simp [List.length_append])
    exact ⟨k2, by simpa only [reMatch] using hk2⟩
  | group n a iha =>
    intro pre h rest k
    cases h with
    | group h1 =>
      obtain ⟨k1, hk1⟩ := iha pre h1 rest k
      refine ⟨capSet k1 n ((pre ++ rest).take ((pre ++ rest).length -
        rest.length)), ?_⟩
      simp only [reMatch]
      exact List.mem_map.mpr ⟨(rest, k1), hk1, rfl⟩

/-- `fullmatch` succeeds exactly on strings in the language of the pattern. -/
theorem fullmatchB_iff (r : RE) (s : String) :
    fullmatchB r s = true ↔ RMatch r s.data := by
  unfold fullmatchB reFullmatch
  rw [show ∀ (o : Option (List Char × Caps)),
      (o.map (fun p => p.2)).isSome = o.isSome by intro o; cases o <;> rfl]
  constructor
  · intro h
    obtain ⟨p, hmem, hp⟩ := List.find?_isSome.mp h
    obtain ⟨pre, hcs, hm⟩ := reMatch_sound r s.data [] p hmem
    have hempty : p.1 = [] := List.isEmpty_iff.mp hp
    rw [hempty, List.append_nil] at hcs
    rwa [hcs]
  · intro h
    obtain ⟨k2, hk2⟩ := reMatch_complete r s.data h [] []
    rw [List.append_nil] at hk2
    exact List.find?_isSome.mpr ⟨([], k2), hk2, rfl⟩

/-- C8.  Pivot-candidate selection is full-string matching: the filter
`match_fields(re, True)` selects a field if and only if the *entire* field
name is in the language of the compiled pattern, and `match_fields(re,
False)` selects it exactly otherwise — so a pattern matching only a proper
substring of the name selects nothing. -/
theorem C8_fullmatch (r : RE) (name : String) :
    (match_fields r true name = true ↔ RMatch r name.data) ∧
    (match_fields r false name = true ↔ ¬ RMatch r name.data) := by
  unfold match_fields
  constructor
  · rw [← fullmatchB_iff r name]
    cases fullmatchB r name <;> simp
  · rw [← fullmatchB_iff r name]
    cases fullmatchB r name <;> simp

/-! ## Claim C7: specs are applied in order against a shrinking field list -/

/-- `resolveField` keeps the original field name. -/
theorem resolveField_name (uf : UField) (r : RE) (f : FieldD) :
    (resolveField uf r f).name = f.name := rfl

/-- Invert one step of `resolveSpecs`. -/
theorem resolveSpecs_cons_inv {uf : UField} {rest : List UField}
    {fields : List FieldD} {acc : List PivotField}
    {out : List FieldD × List PivotField}
    (h : resolveSpecs (uf :: rest) fields acc = .ok out) :
    ∃ r, reCompile uf.name = some r ∧
      resolveSpecs rest
        (fields.filter (fun f => match_fields r false f.name))
        (acc ++ (fields.filter (fun f => match_fields r true f.name)).map
          (fun f => resolveField uf r f)) = .ok out := by
  cases hc : reCompile uf.name with
  | none => rw [resolveSpecs, hc] at h; cases h
  | some r =>
    rw [resolveSpecs, hc] at h
    exact ⟨r, rfl, h⟩

/-- A name carried by no current field can never gain new resolved entries. -/
theorem resolveSpecs_filter_frozen :
    ∀ (ufs : List UField) (fields : List FieldD) (acc : List PivotField)
      (kept : List FieldD) (pivots : List PivotField) (s : String),
      (∀ g ∈ fields, g.name ≠ s) →
      resolveSpecs ufs fields acc = .ok (kept, pivots) →
      pivots.filter (fun p => p.name == s) =
        acc.filter (fun p => p.name == s) := by
  intro ufs
  induction ufs with
  | nil =>
    intro fields acc kept pivots s _ h
    simp only [resolveSpecs] at h
    rw [← ((Prod.mk.injEq ..).mp (Except.ok.inj h)).2]
  | cons uf rest ih =>
    intro fields acc kept pivots s hno h
    obtain ⟨r, _, hrec⟩ := resolveSpecs_cons_inv h
    have hno2 : ∀ g ∈ fields.filter (fun f => match_fields r false f.name),
        g.name ≠ s := fun g hg => hno g (List.mem_filter.mp hg).1
    rw [ih _ _ _ _ _ hno2 hrec, List.filter_append]
    have hnil : ((fields.filter (fun f => match_fields r true f.name)).map
        (fun f => resolveField uf r f)).filter (fun p => p.name == s) = [] := by
      apply List.filter_eq_nil_iff.mpr
      intro p hp
      rcases List.mem_map.mp hp with ⟨g, hg, rfl⟩
      have hgs := hno g (List.mem_filter.mp hg).1
      simpa [resolveField_name, beq_iff_eq] using hgs
    rw [hnil, List.append_nil]

/-- In a duplicate-free field list the only field surviving both a filter the
field satisfies and a name filter for its own name is the field itself. -/
theorem filter_filter_name_unique :
    ∀ (fields : List FieldD), (fields.map FieldD.name).Nodup →
      ∀ (f : FieldD), f ∈ fields → ∀ (q : FieldD → Bool), q f = true →
        (fields.filter q).filter (fun g => g.name == f.name) = [f] := by
  intro fields
  induction fields with
  | nil => intro _ f hf; simp at hf
  | cons g rest ih =>
    intro hnd f hf q hq
    simp only [List.map_cons, List.nodup_cons] at hnd
    rcases List.mem_cons.mp hf with rfl | hmem
    · rw [List.filter_cons, if_pos hq, List.filter_cons, if_pos (by simp)]
      have hnil : (rest.filter q).filter (fun g2 => g2.name == f.name) = [] := by
        apply List.filter_eq_nil_iff.mpr
        intro p hp
        have hpr : p ∈ rest := (List.mem_filter.mp hp).1
        have hne : p.name ≠ f.name := by
          intro hcontra
          exact hnd.1 (hcontra ▸ List.mem_map_of_mem FieldD.name hpr)
        simpa [beq_iff_eq] using hne
      rw [hnil]
    · have hgf : g.name ≠ f.name := by
        intro hcontra
        exact hnd.1 (hcontra ▸ List.mem_map_of_mem FieldD.name hmem)
      rw [List.filter_cons]
      by_cases hqg : q g = true
      · rw [if_pos hqg, List.filter_cons, if_neg (by simpa [beq_iff_eq] using hgf)]
        exact ih hnd.2 f hmem q hq
      · rw [if_neg hqg]
        exact ih hnd.2 f hmem q hq

/-- The heart of C7: the entries a field contributes to the accumulated pivot
list come from the first spec whose compiled pattern fully matches its name,
with that spec's keys, exactly once. -/
theorem resolveSpecs_first_match :
    ∀ (ufs : List UField) (i : Nat) (fields : List FieldD)
      (acc : List PivotField) (kept : List FieldD) (pivots : List PivotField)
      (f : FieldD) (ri : RE),
      (fields.map FieldD.name).Nodup → f ∈ fields →
      ∀ (hi : i < ufs.length),
        reCompile (ufs.get ⟨i, hi⟩).name = some ri →
        fullmatchB ri f.name = true →
        (∀ k (hk : k < i) (rk : RE),
          reCompile (ufs.get ⟨k, Nat.lt_trans hk hi⟩).name = some rk →
          fullmatchB rk f.name = false) →
        resolveSpecs ufs fields acc = .ok (kept, pivots) →
        pivots.filter (fun p => p.name == f.name) =
          acc.filter (fun p => p.name == f.name) ++
            [resolveField (ufs.get ⟨i, hi⟩) ri f] := by
  intro ufs
  induction ufs with
  | nil => intro i fields acc kept pivots f ri _ _ hi; simp at hi
  | cons uf rest ih =>
    intro i fields acc kept pivots f ri hnd hf hi hci hmi hfirst hok
    obtain ⟨r, hc, hrec⟩ := resolveSpecs_cons_inv hok
    cases i with
    | zero =>
      have hri : r = ri := by
        rw [show (uf :: rest).get ⟨0, hi⟩ = uf from rfl, hc] at hci
        exact Option.some.inj hci
      subst hri
      have hno : ∀ g ∈ fields.filter (fun g => match_fields r false g.name),
          g.name ≠ f.name := by
        intro g hg hcontra
        have hgf : g = f :=
          List.inj_on_of_nodup_map hnd (List.mem_filter.mp hg).1 hf hcontra
        subst hgf
        have hfalse := (List.mem_filter.mp hg).2
        simp [match_fields, hmi] at hfalse
      rw [resolveSpecs_filter_frozen rest _ _ _ _ _ hno hrec,
        List.filter_append]
      congr 1
      rw [List.filter_map]
      have hcongr :
          List.filter ((fun p => p.name == f.name) ∘
              fun g => resolveField uf r g)
            (List.filter (fun g => match_fields r true g.name) fields) =
          List.filter (fun g => g.name == f.name)
            (List.filter (fun g => match_fields r true g.name) fields) :=
        List.filter_congr (fun x _ => rfl)
      rw [hcongr]
      rw [filter_filter_name_unique fields hnd f hf _
        (by simp [match_fields, hmi])]
      rfl
    | succ i2 =>
      have hr0 : fullmatchB r f.name = false :=
        hfirst 0 (Nat.succ_pos i2) r hc
      have hfrem : f ∈ fields.filter (fun g => match_fields r false g.name) :=
        List.mem_filter.mpr ⟨hf, by simp [match_fields, hr0]⟩
      have hnd2 : ((fields.filter
          (fun g => match_fields r false g.name)).map FieldD.name).Nodup :=
        List.Nodup.sublist (List.Sublist.map FieldD.name
          (List.filter_sublist fields)) hnd
      have hi2 : i2 < rest.length := Nat.lt_of_succ_lt_succ hi
      have hci2 : reCompile (rest.get ⟨i2, hi2⟩).name = some ri := hci
      have hfirst2 : ∀ k (hk : k < i2) (rk : RE),
          reCompile (rest.get ⟨k, Nat.lt_trans hk hi2⟩).name = some rk →
          fullmatchB rk f.name = false :=
        fun k hk rk hkc => hfirst (k + 1) (Nat.succ_lt_succ hk) rk hkc
      have hmain := ih i2 _ _ kept pivots f ri hnd2 hfrem hi2 hci2 hmi
        hfirst2 hrec
      rw [hmain, List.filter_append]
      have hnil : ((fields.filter (fun g => match_fields r true g.name)).map
          (fun g => resolveField uf r g)).filter
            (fun p => p.name == f.name) = [] := by
        apply List.filter_eq_nil_iff.mpr
        intro p hp
        rcases List.mem_map.mp hp with ⟨g, hg, rfl⟩
        have hgmem := List.mem_filter.mp hg
        intro hbeq
        have hgname : g.name = f.name := by
          simpa [resolveField_name, beq_iff_eq] using hbeq
        have hgf : g = f :=
          List.inj_on_of_nodup_map hnd hgmem.1 hf hgname
        subst hgf
        have := hgmem.2
        simp [match_fields, hr0] at this
      rw [hnil, List.append_nil]
      rfl

/-- C7.  Specs are processed in declaration order on a shrinking working
list: when a schema field (in a duplicate-free field list) fully matches an
earlier spec `i` and a later spec `j`, the accumulated pivot list contains
exactly one entry for that field — the resolution by spec `i`, with spec
`i`'s keys — and nothing from spec `j` or any other later spec. -/
theorem C7_first_spec_wins (ufs : List UField) (fields : List FieldD)
    (i j : Nat) (f : FieldD) (ri rj : RE) (kept : List FieldD)
    (pivots : List PivotField)
    (hnd : (fields.map FieldD.name).Nodup) (hf : f ∈ fields)
    (hi : i < ufs.length) (hj : j < ufs.length) (hij : i < j)
    (hci : reCompile (ufs.get ⟨i, hi⟩).name = some ri)
    (hcj : reCompile (ufs.get ⟨j, hj⟩).name = some rj)
    (hmi : fullmatchB ri f.name = true)
    (hmj : fullmatchB rj f.name = true)
    (hfirst : ∀ k (hk : k < i) (rk : RE),
      reCompile (ufs.get ⟨k, Nat.lt_trans hk hi⟩).name = some rk →
      fullmatchB rk f.name = false)
    (hok : resolveSpecs ufs fields [] = .ok (kept, pivots)) :
    pivots.filter (fun p => p.name == f.name) =
      [resolveField (ufs.get ⟨i, hi⟩) ri f] := by
  have := resolveSpecs_first_match ufs i fields [] kept pivots f ri hnd hf
    hi hci hmi hfirst hok
  simpa using this

/-- Witness for `C7_first_spec_wins`: two specs with the same pattern `a` and
different keys; the field `a` is resolved once, with the first spec's keys. -/
theorem C7_first_spec_wins_witness :
    ((([⟨"a"⟩] : List FieldD).map FieldD.name).Nodup) ∧
    (⟨"a"⟩ : FieldD) ∈ ([⟨"a"⟩] : List FieldD) ∧
    reCompile (UField.mk "a" [("k", Value.str "x")]).name =
      some (RE.ch 'a') ∧
    reCompile (UField.mk "a" [("k2", Value.str "y")]).name =
      some (RE.ch 'a') ∧
    fullmatchB (RE.ch 'a') (FieldD.mk "a").name = true ∧
    resolveSpecs
        [⟨"a", [("k", Value.str "x")]⟩, ⟨"a", [("k2", Value.str "y")]⟩]
        [⟨"a"⟩] [] =
      .ok ([], [⟨"a", some [("k", Value.str "x")]⟩]) ∧
    ([⟨"a", some [("k", Value.str "x")]⟩] : List PivotField).filter
        (fun p => p.name == (FieldD.mk "a").name) =
      [resolveField ⟨"a", [("k", Value.str "x")]⟩ (RE.ch 'a') ⟨"a"⟩] :=
  ⟨by decide, by decide, by decide, by decide, by decide, by decide,
   C7_first_spec_wins
     [⟨"a", [("k", Value.str "x")]⟩, ⟨"a", [("k2", Value.str "y")]⟩]
     [⟨"a"⟩] 0 1 ⟨"a"⟩ (RE.ch 'a') (RE.ch 'a') []
     [⟨"a", some [("k", Value.str "x")]⟩]
     (by decide) (by decide) (by decide) (by decide) (by decide) (by decide)
     (by decide) (by decide) (by decide)
     (fun k hk _ _ => absurd hk (Nat.not_lt_zero k)) (by decide)⟩
